import Mathlib

/-!
Verification of the mailpost content pipeline (main.go) against its
specification.  Go strings are modelled as lists of Unicode code points
(`List Nat`); every definition mirrors one function of the source file.
-/

/-- Go strings, as lists of rune code points. -/
abbrev GoStr := List Nat

/-- Convert a Lean string literal to its rune list, for concrete inputs. -/
def strOf (s : String) : GoStr := s.toList.map Char.toNat

/-- The literal token `<type>` recognized by the path templater. -/
def tokType : GoStr := strOf "<type>"

/-- The literal token `<date>` recognized by the path templater. -/
def tokDate : GoStr := strOf "<date>"

/-- Models Go `strings.Index`: index of the first occurrence of `pat`
in `s`, `none` when absent (Go returns -1).  `Index(s, "") = 0`. -/
def findSub (s pat : GoStr) : Option Nat :=
  if pat.isPrefixOf s then some 0
  else
    match s with
    | [] => none
    | _ :: tl => (findSub tl pat).map (· + 1)

/-- Models Go `strings.Contains`. -/
def goContains (s pat : GoStr) : Bool := (findSub s pat).isSome

/-- Models Go `strings.Replace(s, old, new, 1)`: replace the first
occurrence of `old` (insert at the start when `old` is empty). -/
def goStringsReplace1 (s old new : GoStr) : GoStr :=
  match findSub s old with
  | none => s
  | some i => s.take i ++ new ++ s.drop (i + old.length)

/-- Models Go `strings.Trim(s, " ")`: strip leading and trailing spaces. -/
def goTrimSpaces (s : GoStr) : GoStr :=
  ((s.dropWhile (· = 32)).reverse.dropWhile (· = 32)).reverse

/-- The Go struct `PathParts` (main.go): the date and type components
substituted into a path template.  The Go field `Type` is called `ty`
here because `type` is reserved in Lean. -/
structure PathParts where
  date : GoStr
  ty   : GoStr
deriving Repr, DecidableEq

/-- Models `(*Mailpost).MakePathFromTemplate` (main.go lines 132-140):
when the type is non-empty, replace the first `<type>` with the trimmed
type; then, when the date is non-empty, replace the first `<date>` with
the date. -/
def makePathFromTemplate (pathTemplate : GoStr) (pathData : PathParts) : GoStr :=
  let t1 := if pathData.ty ≠ [] then
      goStringsReplace1 pathTemplate tokType (goTrimSpaces pathData.ty)
    else pathTemplate
  if pathData.date ≠ [] then goStringsReplace1 t1 tokDate pathData.date else t1

/-- Models Go `strings.ToLower` on one rune: Unicode lowering restricted
to ASCII (runes outside `A`-`Z` relevant to sanitization are unchanged,
and every non-ASCII rune falls outside `[\w\.]` regardless). -/
def goToLowerRune (c : Nat) : Nat := if 65 ≤ c ∧ c ≤ 90 then c + 32 else c

/-- Models Go `strings.ToLower` on a string. -/
def goToLowerStr (s : GoStr) : GoStr := s.map goToLowerRune

/-- The character class `[\w\.]` of Go `regexp` (ASCII word characters
and the dot). -/
def wordDotB (c : Nat) : Bool :=
  decide ((48 ≤ c ∧ c ≤ 57) ∨ (65 ≤ c ∧ c ≤ 90) ∨ (97 ≤ c ∧ c ≤ 122) ∨
    c = 95 ∨ c = 46)

/-- Models `(*Mailpost).SanitizeFilename` (main.go lines 170-173):
lowercase the name, then replace every character outside `[\w\.]` by `_`
(code 95), as `regexp.MustCompile` of the class complement with
`ReplaceAllString` does. -/
def sanitizeFilename (name : GoStr) : GoStr :=
  (goToLowerStr name).map (fun c => if wordDotB c then c else 95)

/-- The character class `[a-z0-9_.]` named by the specification. -/
def lowerClassB (c : Nat) : Bool :=
  decide ((97 ≤ c ∧ c ≤ 122) ∨ (48 ≤ c ∧ c ≤ 57) ∨ c = 95 ∨ c = 46)

/-- Following the spec's words: a string matches the regular expression
`[a-z0-9_.]+` iff it is nonempty and each character is in the class. -/
def matchesLowerClassPlus (s : GoStr) : Bool :=
  (!s.isEmpty) && s.all lowerClassB

/-- The per-character action of `sanitizeFilename`. -/
def sanChar (c : Nat) : Nat :=
  if wordDotB (goToLowerRune c) then goToLowerRune c else 95

/-- Split a string at `/` (code 47); inverse companion of joining with
`/`.  Always yields at least one piece; pieces contain no `/`. -/
def splitSlash : GoStr → List GoStr
  | [] => [[]]
  | c :: tl =>
      if c = 47 then [] :: splitSlash tl
      else
        match splitSlash tl with
        | [] => [[c]]
        | h :: t => (c :: h) :: t

/-- Join pieces with a separator (Go `strings.Join`). -/
def goIntercalate (sep : GoStr) : List GoStr → GoStr
  | [] => []
  | [x] => x
  | x :: y :: t => x ++ sep ++ goIntercalate sep (y :: t)

/-- The element stack of Go `path.Clean`, processing the slash-separated
elements left to right; `out` holds retained elements in reverse.  Empty
and `.` elements are dropped, `..` pops the previous element (kept when
nothing can be popped and the path is not rooted, dropped at a root). -/
def cleanStackAux (rooted : Bool) : List GoStr → List GoStr → List GoStr
  | out, [] => out
  | out, e :: es =>
      if e = [] ∨ e = [46] then cleanStackAux rooted out es
      else if e = [46, 46] then
        match out with
        | [] => if rooted then cleanStackAux rooted [] es
                else cleanStackAux rooted [e] es
        | top :: rest =>
            if top = [46, 46] then cleanStackAux rooted (e :: out) es
            else cleanStackAux rooted rest es
      else cleanStackAux rooted (e :: out) es

/-- Models Go `path/filepath.Clean` on a Unix path: shortest equivalent
path (collapse `//`, drop `.`, resolve `..`); `"."` for an empty result,
with the leading `/` of a rooted path retained. -/
def goPathClean (s : GoStr) : GoStr :=
  if s = [] then [46]
  else if s.head? = some 47 then
    47 :: goIntercalate [47] ((cleanStackAux true [] (splitSlash s)).reverse)
  else if goIntercalate [47] ((cleanStackAux false [] (splitSlash s)).reverse) = [] then
    [46]
  else goIntercalate [47] ((cleanStackAux false [] (splitSlash s)).reverse)

/-- Models Go `path/filepath.Join` on Unix: skip leading empty elements,
join the rest with `/`, and Clean; all-empty input yields `""`. -/
def goFilepathJoin (elems : List GoStr) : GoStr :=
  match elems.dropWhile (fun e => e = []) with
  | [] => []
  | l => goPathClean (goIntercalate [47] l)

/-- No two adjacent `/` (code 47) characters. -/
def noDoubleSlash : GoStr → Bool
  | [] => true
  | [_] => true
  | a :: b :: t => (!(decide (a = 47) && decide (b = 47))) && noDoubleSlash (b :: t)

/-- An element that `path.Clean` retains: neither empty nor `.`. -/
def pushableB (e : GoStr) : Bool := !(decide (e = []) || decide (e = [46]))

/-- Decimal digits of `n` (most significant first), left-padded with `0`
(code 48) to width `w`; the digit rendering of Go `time.Format`. -/
def natToPad (w n : Nat) : GoStr :=
  let ds := (Nat.toDigits 10 n).map Char.toNat
  List.replicate (w - ds.length) 48 ++ ds

/-- Models Go `time.Parse("2006-01-02", s)` as used by
`MakeDatePathPart`: a `YYYY-MM-DD` string yields (year, month, day); any
failure yields Go's zero time (year 1, January 1) since the source
discards the parse error. -/
def parseDateYMD (s : GoStr) : Nat × Nat × Nat :=
  match s with
  | [y1, y2, y3, y4, 45, m1, m2, 45, d1, d2] =>
      if 48 ≤ y1 ∧ y1 ≤ 57 ∧ 48 ≤ y2 ∧ y2 ≤ 57 ∧ 48 ≤ y3 ∧ y3 ≤ 57 ∧
         48 ≤ y4 ∧ y4 ≤ 57 ∧ 48 ≤ m1 ∧ m1 ≤ 57 ∧ 48 ≤ m2 ∧ m2 ≤ 57 ∧
         48 ≤ d1 ∧ d1 ≤ 57 ∧ 48 ≤ d2 ∧ d2 ≤ 57 then
        let y := (y1 - 48) * 1000 + (y2 - 48) * 100 + (y3 - 48) * 10 + (y4 - 48)
        let mo := (m1 - 48) * 10 + (m2 - 48)
        let d := (d1 - 48) * 10 + (d2 - 48)
        if 1 ≤ mo ∧ mo ≤ 12 ∧ 1 ≤ d ∧ d ≤ 31 then (y, mo, d) else (1, 1, 1)
      else (1, 1, 1)
  | _ => (1, 1, 1)

/-- Models Go `Time.Format` for the layout chunks `2006` (4-digit year),
`01` (2-digit month) and `02` (2-digit day) — the chunks meaningful for
a `DatePathFmt` such as `2006/01` — copying any other layout byte
verbatim. -/
def formatLayout (ymd : Nat × Nat × Nat) : GoStr → GoStr
  | 50 :: 48 :: 48 :: 54 :: rest => natToPad 4 ymd.1 ++ formatLayout ymd rest
  | 48 :: 49 :: rest => natToPad 2 ymd.2.1 ++ formatLayout ymd rest
  | 48 :: 50 :: rest => natToPad 2 ymd.2.2 ++ formatLayout ymd rest
  | c :: rest => c :: formatLayout ymd rest
  | [] => []

/-- Models `(*Mailpost).MakeDatePathPart` (main.go lines 126-130):
parse the front-matter date and format it with the configured layout. -/
def makeDatePathPart (datePathFmt dateInfo : GoStr) : GoStr :=
  formatLayout (parseDateYMD dateInfo) datePathFmt

/-- The Go struct `Config` (main.go), restricted to the fields the
modelled core reads (`Server`/`User`/`Password`/`PostFrom` feed the
excluded mail transport). -/
structure Config where
  imageDir    : GoStr
  postDir     : GoStr
  datePathFmt : GoStr
  baseURL     : GoStr
  imagePath   : GoStr
  maxImgWidth : Nat
deriving Repr, DecidableEq

/-- The Go struct `Image` (main.go): `OrigURL`, `OrigName`, `Name`,
`Path`, `URL`, `Data`. -/
structure Image where
  origURL  : GoStr
  origName : GoStr
  name     : GoStr
  path     : GoStr
  url      : GoStr
  data     : List Nat
deriving Repr, DecidableEq

/-- The Go struct `Post` (main.go): `Title`, `Date`, `Type` (here `ty`,
Lean reserves `type`), `File`, `Path`, `URL`, `Data`. -/
structure Post where
  title : GoStr
  date  : GoStr
  ty    : GoStr
  file  : GoStr
  path  : GoStr
  url   : GoStr
  data  : GoStr
deriving Repr, DecidableEq

/-- Scan of a reversed path for `filepath.Ext`: collect until the last
dot (code 46), fail at a slash (code 47) or the start. -/
def goFilepathExtAux : List Nat → List Nat → GoStr
  | _, [] => []
  | acc, c :: tl =>
      if c = 46 then 46 :: acc
      else if c = 47 then []
      else goFilepathExtAux (c :: acc) tl

/-- Models Go `filepath.Ext`: the suffix from the final dot of the last
path element; empty when there is no dot. -/
def goFilepathExt (s : GoStr) : GoStr := goFilepathExtAux [] s.reverse

/-- Models `(*Mailpost).ExtractImageData` (main.go lines 350-358):
sanitize the original name, strip its extension, force `.jpg`, and
append the Image to the working set. -/
def ExtractImageData (images : List Image) (imageInfo : Image) : List Image :=
  let name0 := sanitizeFilename imageInfo.origName
  let ext := goFilepathExt name0
  let name1 := name0.take (name0.length - ext.length)
  images ++ [{ imageInfo with name := name1 ++ strOf ".jpg" }]

/-- The anonymous struct `T{Title, Date, Type}` that `ExtractPostData`
unmarshals front matter into. -/
structure TFront where
  title : GoStr
  date  : GoStr
  ty    : GoStr
deriving Repr, DecidableEq

/-- Split a string at newlines (code 10). -/
def splitNL : GoStr → List GoStr
  | [] => [[]]
  | c :: tl =>
      if c = 10 then [] :: splitNL tl
      else
        match splitNL tl with
        | [] => [[c]]
        | h :: t => (c :: h) :: t

/-- Modelled library: `yaml.Unmarshal` into `TFront`, restricted to flat
`key: value` front matter.  A blank line is skipped; a non-blank line
without a colon (code 58) is a parse error; `title`/`date`/`type` keys
set the fields (a later occurrence wins); other keys are ignored. -/
def yamlLine (acc : TFront) (ln : GoStr) : Option TFront :=
  if ln.all (fun c => c = 32) then some acc
  else
    match findSub ln [58] with
    | none => none
    | some i =>
        let k := goTrimSpaces (ln.take i)
        let v := goTrimSpaces (ln.drop (i + 1))
        if k = strOf "title" then some { acc with title := v }
        else if k = strOf "date" then some { acc with date := v }
        else if k = strOf "type" then some { acc with ty := v }
        else some acc

/-- Modelled library: `yaml.Unmarshal([]byte(post), &t)` of
`ExtractPostData`, line by line. -/
def yamlParseT (s : GoStr) : Option TFront :=
  (splitNL s).foldlM yamlLine ⟨[], [], []⟩

/-- Models `(*Mailpost).MakePostPath` (main.go lines 142-154) without
the `MkdirAll` side effect: unconditionally replace the first `<type>`
by the trimmed type, then the first `<date>` by the formatted date, in
the Post's `path` field (set to the `PostDir` template by the caller). -/
def MakePostPath (cfg : Config) (postInfo : Post) : GoStr :=
  let datePathPart := makeDatePathPart cfg.datePathFmt postInfo.date
  let p1 := goStringsReplace1 postInfo.path tokType (goTrimSpaces postInfo.ty)
  goStringsReplace1 p1 tokDate datePathPart

/-- Models `(*Mailpost).ExtractPostData` (main.go lines 410-438): on a
front-matter parse error, log and drop the message; otherwise append a
Post built from the parsed fields.  Note the source checks only the
`yaml.Unmarshal` error — an empty or absent title is not rejected. -/
def ExtractPostData (cfg : Config) (posts : List Post) (post : GoStr) : List Post :=
  match yamlParseT post with
  | none => posts
  | some t =>
      let postInfo : Post := {
        title := t.title
        date := t.date
        ty := goToLowerStr t.ty
        file := sanitizeFilename t.title ++ strOf ".md"
        path := cfg.postDir
        url := []
        data := post }
      posts ++ [{ postInfo with path := MakePostPath cfg postInfo }]

/-- Modelled library: `image.Decode` with the registered `jpeg` and
`png` decoders (main.go imports).  Success is determined by the
registered magic numbers; pixel contents are irrelevant to the claims. -/
def goImageDecodable (data : List Nat) : Bool :=
  [255, 216, 255].isPrefixOf data ||
    [137, 80, 78, 71, 13, 10, 26, 10].isPrefixOf data

/-- Modelled library: the resize-to-`MaxImgWidth`, flatten-onto-white
and `jpeg.Encode` pipeline of `SaveImage`; the written bytes are opaque
to every claim, only the fact of the write matters. -/
def normalizeJpeg (maxImgWidth : Nat) (data : List Nat) : List Nat := data

/-- Outcome of `(*Image).SaveImage`: either the mutated Image plus the
file write it performs, or the runtime panic the source hits when
`image.Decode` fails (it logs the error but still calls `img.Bounds()`
on the nil interface, main.go lines 379-385). -/
inductive SaveRes where
  | ok (imageInfo : Image) (writePath : GoStr) (content : List Nat)
  | panicked (imageInfo : Image)
deriving Repr, DecidableEq

/-- The directory `SaveImage` computes for an image: the `ImageDir`
template instantiated with ONLY the date set — the `PathParts` zero
value leaves `Type` empty (main.go lines 362-365). -/
def saveImageDir (cfg : Config) (relatedPost : Post) : GoStr :=
  makePathFromTemplate cfg.imageDir
    { date := makeDatePathPart cfg.datePathFmt relatedPost.date, ty := [] }

/-- Models `(*Image).SaveImage` (main.go lines 360-408): compute the
image path and public URL, then decode / normalize / write the JPEG.
The path and URL fields are assigned before decoding, so they are set
even on the panicking branch. -/
def SaveImage (cfg : Config) (relatedPost : Post) (imageInfo : Image) : SaveRes :=
  let datePart := makeDatePathPart cfg.datePathFmt relatedPost.date
  let dir := saveImageDir cfg relatedPost
  let path := goFilepathJoin [dir, imageInfo.name]
  let url := goFilepathJoin [cfg.baseURL, cfg.imagePath, datePart, imageInfo.name]
  let img2 := { imageInfo with path := path, url := url }
  if goImageDecodable imageInfo.data then
    .ok img2 path (normalizeJpeg cfg.maxImgWidth imageInfo.data)
  else
    .panicked img2

/-- The sequence of results `multipart.Reader.NextPart` presents to
`ExtractAttachment`, as a tree: `nil` is `io.EOF`; `errCons` is a
non-EOF error (malformed part/boundary); `cons` is one part carrying
its Content-Type, filename, the bytes the base64 decoder yields for an
image body (with the read-error flag the source assigns but never
checks), the text body (with the `io.Copy` error flag), the nested
sub-part stream used when the part is itself multipart, and the
remaining parts. -/
inductive PartTree where
  | nil : PartTree
  | errCons : PartTree
  | cons (contentType fileName : GoStr) (imgBytes : List Nat) (b64err : Bool)
      (text : GoStr) (copyErr : Bool) (sub rest : PartTree) : PartTree

/-- Models `(*Mailpost).HasImage` (main.go lines 309-315). -/
def HasImage (contentType : GoStr) : Bool :=
  (strOf "image/jpeg").isPrefixOf contentType ||
    (strOf "image/png").isPrefixOf contentType

/-- Models `(*Mailpost).HasText` (main.go lines 317-323). -/
def HasText (contentType : GoStr) : Bool :=
  (strOf "text/plain").isPrefixOf contentType ||
    (strOf "multipart/alternative").isPrefixOf contentType

/-- Models `(*Mailpost).HasMultipart` (main.go lines 325-330). -/
def HasMultipart (contentType : GoStr) : Bool :=
  (strOf "multipart/").isPrefixOf contentType

/-- The process-wide working sets of `Mailpost` that the extraction
mutates. -/
structure MState where
  images : List Image
  posts  : List Post
deriving Repr, DecidableEq

/-- The `log.Fatalf` exits of the reference MessageDecoder. -/
inductive GoFatal where
  | parsePart : GoFatal
  | copyBody  : GoFatal
deriving Repr, DecidableEq

/-- Models `(*Mailpost).ExtractAttachment` (main.go lines 175-221):
walk the part stream; a `NextPart` error is fatal (`log.Fatalf`);
a `multipart/*` part recurses with its own boundary; an image part
base64-decodes the body — the read error is assigned but never
checked, so a base64 failure is silently ignored and the partial bytes
are kept — and collects the Image; a text part is fatal only when the
body copy fails, otherwise it feeds `ExtractPostData`. -/
def ExtractAttachment (cfg : Config) : PartTree → MState → Except GoFatal MState
  | .nil, st => .ok st
  | .errCons, _ => .error .parsePart
  | .cons ct fn d _b64err txt cerr sub rest, st =>
      if HasMultipart ct then
        match ExtractAttachment cfg sub st with
        | .error e => .error e
        | .ok st' => ExtractAttachment cfg rest st'
      else if HasImage ct then
        let imageInfo : Image :=
          { origURL := [], origName := fn, name := [], path := [],
            url := [], data := d }
        ExtractAttachment cfg rest
          { st with images := ExtractImageData st.images imageInfo }
      else if HasText ct then
        if cerr then .error .copyBody
        else ExtractAttachment cfg rest
          { st with posts := ExtractPostData cfg st.posts txt }
      else ExtractAttachment cfg rest st

/-- Result of one `http.Get`: a transport error (Go returns a nil
response) or a response with status code and body bytes. -/
inductive FetchRes where
  | transportErr : FetchRes
  | resp (status : Nat) (body : List Nat) : FetchRes

/-- Outcome of the remote-retrieval pass: normal completion; the early
`return` the source takes on a non-200 response (main.go line 469),
abandoning every remaining URL and post; or the nil dereference a
transport error causes inside the logging call (`reqImg.StatusCode`
with `reqImg == nil`, line 468). -/
inductive RetrieveOut where
  | done (images : List Image) : RetrieveOut
  | earlyReturn (images : List Image) : RetrieveOut
  | panicked (images : List Image) : RetrieveOut
deriving Repr, DecidableEq

/-- Models Go `url.Parse(u).Path` for the absolute `http(s)://` URLs the
remote-image pattern captures: the part from the first `/` after the
`://` separator (queries and fragments are not modelled). -/
def goURLPath (s : GoStr) : GoStr :=
  match findSub s (strOf "://") with
  | none => s
  | some i => (s.drop (i + 3)).dropWhile (fun c => c != 47)

/-- Models Go `filepath.Base`: `.` for the empty path, `/` for all
slashes, otherwise the last element after trailing slashes are
removed. -/
def goFilepathBase (s : GoStr) : GoStr :=
  if s = [] then [46]
  else
    let t := (s.reverse.dropWhile (fun c => c == 47)).reverse
    if t = [] then [47]
    else (t.reverse.takeWhile (fun c => c != 47)).reverse

/-- The inner URL loop of `RetrieveImages` (main.go lines 464-481):
fetch each captured URL; a transport error dereferences the nil
response in the log call; a non-200 status logs and `return`s from the
whole pass; a 200 collects the Image via `ExtractImageData` (the Image
fields `Name`/`Path`/`URL` of the loop-carried `imageInfo` variable are
never assigned in this pass and stay zero). -/
def retrieveURLs (fetch : GoStr → FetchRes) :
    List GoStr → List Image → Except RetrieveOut (List Image)
  | [], images => .ok images
  | u :: us, images =>
      match fetch u with
      | .transportErr => .error (.panicked images)
      | .resp status body =>
          if status ≠ 200 then .error (.earlyReturn images)
          else retrieveURLs fetch us (ExtractImageData images
            { origURL := u, origName := goFilepathBase (goURLPath u),
              name := [], path := [], url := [], data := body })

/-- Models `(*Mailpost).RetrieveImages` (main.go lines 457-483).  The
scan of each body with the remote markdown-image pattern
(`regexp.FindAllStringSubmatch`) and `http.Get` are external library
calls, supplied as the oracles `findURLs` (captured URLs per body, in
document order) and `fetch`. -/
def RetrieveImages (findURLs : GoStr → List GoStr) (fetch : GoStr → FetchRes) :
    List Post → List Image → RetrieveOut
  | [], images => .done images
  | p :: ps, images =>
      match retrieveURLs fetch (findURLs p.data) images with
      | .error out => out
      | .ok images' => RetrieveImages findURLs fetch ps images'

/-- Observable events of the resolution pass: one image
materialization (`SaveImage` invocation, with the values it stored) or
one post file write. -/
inductive REv where
  | save (idx : Nat) (path url : GoStr) (content : List Nat) : REv
  | writePost (path : GoStr) (contents : GoStr) : REv
deriving Repr, DecidableEq

/-- The body of the inner match loop of `ReplaceImageRefs` for one
captured locator and one image index (main.go lines 496-503): when
`OrigName` or `OrigURL` equals the capture, invoke `SaveImage`
(unconditionally — no check whether the image was already materialized)
and replace the first occurrence of the capture in the post body with
the image's newly computed URL. -/
def RefMatchStep (cfg : Config) (cap : GoStr) (post : Post) (img : Image)
    (idx : Nat) (evs : List REv) : Except Unit (Post × Image × List REv) :=
  if img.origName = cap ∨ img.origURL = cap then
    match SaveImage cfg post img with
    | .panicked _ => .error ()
    | .ok img2 wpath content =>
        .ok ({ post with data := goStringsReplace1 post.data cap img2.url },
             img2, evs ++ [.save idx wpath img2.url content])
  else .ok (post, img, evs)

/-- The inner `j` loop over the image working set for one capture. -/
def refImagesLoop (cfg : Config) (cap : GoStr) :
    Post → List Image → Nat → List REv →
    Except Unit (Post × List Image × List REv)
  | post, [], _, evs => .ok (post, [], evs)
  | post, img :: tl, idx, evs =>
      match RefMatchStep cfg cap post img idx evs with
      | .error e => .error e
      | .ok (post', img', evs') =>
          match refImagesLoop cfg cap post' tl (idx + 1) evs' with
          | .error e => .error e
          | .ok (post2, tl', evs2) => .ok (post2, img' :: tl', evs2)

/-- The `i` loop over the captures of one pattern. -/
def refCapsLoop (cfg : Config) :
    List GoStr → Post → List Image → List REv →
    Except Unit (Post × List Image × List REv)
  | [], post, images, evs => .ok (post, images, evs)
  | cap :: caps, post, images, evs =>
      match refImagesLoop cfg cap post images 0 evs with
      | .error e => .error e
      | .ok (post', images', evs') => refCapsLoop cfg caps post' images' evs'

/-- The per-post body of `ReplaceImageRefs` (main.go lines 490-526):
the three capture lists are computed from the body before any
replacement; markdown captures are processed first, then figure
shortcodes, then img shortcodes; finally `WritePostToFile` writes the
post to `filepath.Join(Path, File)`. -/
def RefPostStep (mdCaps figCaps imgCaps : GoStr → List GoStr) (cfg : Config)
    (post : Post) (images : List Image) (evs : List REv) :
    Except Unit (Post × List Image × List REv) :=
  let md := mdCaps post.data
  let fg := figCaps post.data
  let im := imgCaps post.data
  match refCapsLoop cfg md post images evs with
  | .error e => .error e
  | .ok (p1, i1, e1) =>
      match refCapsLoop cfg fg p1 i1 e1 with
      | .error e => .error e
      | .ok (p2, i2, e2) =>
          match refCapsLoop cfg im p2 i2 e2 with
          | .error e => .error e
          | .ok (p3, i3, e3) =>
              .ok (p3, i3,
                e3 ++ [.writePost (goFilepathJoin [p3.path, p3.file]) p3.data])

/-- Models `(*Mailpost).ReplaceImageRefs` (main.go lines 485-527) over
the whole post list; the three regexp scans (markdown image, figure
shortcode, img shortcode) are supplied as capture oracles.  Yields the
rewritten posts, final images and the event trace, or `.error` for the
decode panic inside `SaveImage`. -/
def ReplaceImageRefs (mdCaps figCaps imgCaps : GoStr → List GoStr)
    (cfg : Config) : List Post → List Image → List REv →
    Except Unit (List Post × List Image × List REv)
  | [], images, evs => .ok ([], images, evs)
  | p :: ps, images, evs =>
      match RefPostStep mdCaps figCaps imgCaps cfg p images evs with
      | .error e => .error e
      | .ok (p', images', evs') =>
          match ReplaceImageRefs mdCaps figCaps imgCaps cfg ps images' evs' with
          | .error e => .error e
          | .ok (ps', images2, evs2) => .ok (p' :: ps', images2, evs2)

/-- The URLs recorded by the `save` events, in order. -/
def saveURLs (evs : List REv) : List GoStr :=
  evs.filterMap (fun e => match e with
    | .save _ _ u _ => some u
    | _ => none)

/-- The image indices recorded by the `save` events, in order. -/
def saveIdxs (evs : List REv) : List Nat :=
  evs.filterMap (fun e => match e with
    | .save idx _ _ _ => some idx
    | _ => none)

/-- A concrete configuration used by the concrete-input theorems. -/
def cfgEx : Config :=
  { imageDir := strOf "static/img/<date>", postDir := strOf "posts/<type>/<date>",
    datePathFmt := strOf "2006/01", baseURL := strOf "http://example.com",
    imagePath := strOf "media", maxImgWidth := 800 }

/-- A concrete attached image (`a.jpg`, valid JPEG magic). -/
def imgEx : Image :=
  { origURL := [], origName := strOf "a.jpg", name := strOf "a.jpg",
    path := [], url := [], data := [255, 216, 255, 1] }

/-- A concrete post dated 2020-01-02 whose body references `a.jpg`. -/
def postEx1 : Post :=
  { title := strOf "P1", date := strOf "2020-01-02", ty := strOf "blog",
    file := strOf "p1.md", path := strOf "posts/blog/2020/01", url := [],
    data := strOf "x a.jpg y" }

/-- A second concrete post, dated 2021-03-04, also referencing `a.jpg`. -/
def postEx2 : Post :=
  { title := strOf "P2", date := strOf "2021-03-04", ty := strOf "blog",
    file := strOf "p2.md", path := strOf "posts/blog/2021/03", url := [],
    data := strOf "z a.jpg w" }

/-- The image path `SaveImage` stores (main.go line 372). -/
def saveImagePath (cfg : Config) (post : Post) (img : Image) : GoStr :=
  goFilepathJoin [saveImageDir cfg post, img.name]

/-- The public URL `SaveImage` stores (main.go line 375). -/
def saveImageURL (cfg : Config) (post : Post) (img : Image) : GoStr :=
  goFilepathJoin [cfg.baseURL, cfg.imagePath,
    makeDatePathPart cfg.datePathFmt post.date, img.name]

/-- An image whose `url` and `path` are already set (as if materialized
by an earlier post), used to witness that the step re-saves anyway. -/
def imgSetEx : Image :=
  { imgEx with
    url := strOf "http:/example.com/media/2020/01/a.jpg"
    path := strOf "static/img/2020/01/a.jpg" }

/-- The Image (with the stored path and URL fields) carried by either
outcome of `SaveImage`. -/
def SaveRes.image : SaveRes → Image
  | .ok i _ _ => i
  | .panicked i => i

/-- A configuration whose BaseURL has `..` as its host part. -/
def cfgDots : Config := { cfgEx with baseURL := strOf "http://.." }

theorem findSub_none (s pat : GoStr) (h : findSub s pat = none) :
    ∀ i, ¬ pat.isPrefixOf (s.drop i) := by
  induction s with
  | nil =>
      intro i
      unfold findSub at h
      split at h
      · exact absurd h (by simp)
      · next hnp =>
          simpa [List.drop_nil] using hnp
  | cons a tl ih =>
      intro i
      unfold findSub at h
      split at h
      · exact absurd h (by simp)
      · next hnp =>
          match i with
          | 0 => simpa using hnp
          | Nat.succ j =>
              have htl : findSub tl pat = none := by
                cases hft : findSub tl pat with
                | none => rfl
                | some k => simp [hft] at h
              simpa using ih htl j

theorem findSub_some (s pat : GoStr) (i : Nat) (h : findSub s pat = some i) :
    pat.isPrefixOf (s.drop i) ∧ ∀ j, j < i → ¬ pat.isPrefixOf (s.drop j) := by
  induction s generalizing i with
  | nil =>
      unfold findSub at h
      split at h
      · next hp =>
          have : i = 0 := by simpa using h.symm
          subst this
          exact ⟨by simpa using hp, by omega⟩
      · exact absurd h (by simp)
  | cons a tl ih =>
      unfold findSub at h
      split at h
      · next hp =>
          have : i = 0 := by simpa using h.symm
          subst this
          exact ⟨by simpa using hp, by omega⟩
      · next hnp =>
          have h' : (findSub tl pat).map (· + 1) = some i := by simpa using h
          cases hft : findSub tl pat with
          | none => rw [hft] at h'; simp at h'
          | some k =>
              have hik : i = k + 1 := by
                rw [hft] at h'; simpa using h'.symm
              subst hik
              obtain ⟨h1, h2⟩ := ih k hft
              refine ⟨by simpa using h1, ?_⟩
              intro j hj
              match j with
              | 0 => simpa using hnp
              | Nat.succ m =>
                  have : m < k := by omega
                  simpa using h2 m this

theorem goContains_iff (s pat : GoStr) :
    goContains s pat = true ↔ ∃ i, pat.isPrefixOf (s.drop i) := by
  constructor
  · intro h
    unfold goContains at h
    cases hf : findSub s pat with
    | none => rw [hf] at h; simp at h
    | some i => exact ⟨i, (findSub_some s pat i hf).1⟩
  · rintro ⟨i, hi⟩
    unfold goContains
    cases hf : findSub s pat with
    | none => exact absurd hi (findSub_none s pat hf i)
    | some k => simp

theorem replace1_of_not_contains (s old new : GoStr)
    (h : goContains s old = false) : goStringsReplace1 s old new = s := by
  unfold goStringsReplace1
  cases hf : findSub s old with
  | none => rfl
  | some i => unfold goContains at h; rw [hf] at h; simp at h

theorem prefix_take_eq (p l : GoStr) (h : p.isPrefixOf l) :
    l.take p.length = p := by
  rw [List.isPrefixOf_iff_prefix] at h
  obtain ⟨t, rfl⟩ := h
  simp

theorem prefix_drop_decomp (s pat : GoStr) (i : Nat)
    (h : pat.isPrefixOf (s.drop i)) :
    s = s.take i ++ pat ++ s.drop (i + pat.length) := by
  rw [List.isPrefixOf_iff_prefix] at h
  obtain ⟨t, ht⟩ := h
  have h1 : s = s.take i ++ s.drop i := (List.take_append_drop i s).symm
  have h2 : s.drop (i + pat.length) = t := by
    have h3 : (s.drop i).drop pat.length = t := by rw [← ht]; simp
    rw [List.drop_drop] at h3
    exact h3
  calc s = s.take i ++ s.drop i := h1
    _ = s.take i ++ (pat ++ t) := by rw [← ht]
    _ = s.take i ++ pat ++ s.drop (i + pat.length) := by rw [h2, List.append_assoc]

theorem replace1_decomp (s old new : GoStr) :
    goStringsReplace1 s old new = s ∨
      ∃ pre suf, s = pre ++ old ++ suf ∧
        goStringsReplace1 s old new = pre ++ new ++ suf := by
  cases hf : findSub s old with
  | none => left; unfold goStringsReplace1; rw [hf]
  | some i =>
      right
      obtain ⟨hp, _⟩ := findSub_some s old i hf
      refine ⟨s.take i, s.drop (i + old.length), ?_, ?_⟩
      · exact prefix_drop_decomp s old i hp
      · unfold goStringsReplace1; rw [hf]

theorem isPrefixOf_append_right (p X B : GoStr) (h : p.isPrefixOf X) :
    p.isPrefixOf (X ++ B) := by
  rw [List.isPrefixOf_iff_prefix] at h ⊢
  obtain ⟨t, rfl⟩ := h
  exact ⟨t ++ B, by simp⟩

theorem isPrefixOf_take (p l : GoStr) (m : Nat) (h : p.isPrefixOf l)
    (hm : p.length ≤ m) : p.isPrefixOf (l.take m) := by
  rw [List.isPrefixOf_iff_prefix] at h ⊢
  obtain ⟨t, rfl⟩ := h
  rw [List.take_append_eq_append_take, List.take_of_length_le hm]
  exact ⟨_, rfl⟩

/-- Occurrences of two distinct equal-length tokens that start with `<`
(code 60) and contain no further `<` can never overlap in a string. -/
theorem tok_no_overlap (s p q : GoStr) (pt qt : List Nat) (i k : Nat)
    (hp : p = 60 :: pt) (hq : q = 60 :: qt)
    (hpt : 60 ∉ pt) (hqt : 60 ∉ qt)
    (hlen : p.length = q.length) (hne : p ≠ q)
    (hiq : q.isPrefixOf (s.drop i)) (hkp : p.isPrefixOf (s.drop k)) :
    k + p.length ≤ i ∨ i + q.length ≤ k := by
  by_contra hcon
  push_neg at hcon
  obtain ⟨h1, h2⟩ := hcon
  rcases Nat.lt_trichotomy i k with hik | hik | hik
  · -- i < k : the start of p's occurrence lies inside q's occurrence
    have hj1 : 1 ≤ k - i := by omega
    have hj2 : k - i < q.length := by omega
    have hqlen : q.length = qt.length + 1 := by rw [hq]; simp
    rw [List.isPrefixOf_iff_prefix] at hiq
    obtain ⟨u, hu⟩ := hiq
    have hdrop : s.drop k = List.drop (k - i - 1) qt ++ u := by
      have e1 : s.drop k = (s.drop i).drop (k - i) := by
        rw [List.drop_drop]
        congr 1
        omega
      have e2 : List.drop (k - i) q = List.drop (k - i - 1) qt := by
        rw [hq]
        have e3 : k - i = (k - i - 1) + 1 := by omega
        rw [e3]
        simp
      rw [e1, ← hu, List.drop_append_of_le_length (by omega), e2]
    have hnn : List.drop (k - i - 1) qt ≠ [] := by
      intro hnil
      have := congrArg List.length hnil
      simp [List.length_drop] at this
      omega
    obtain ⟨c, rest, hcr⟩ := List.exists_cons_of_ne_nil hnn
    have hcqt : c ∈ qt := by
      have hmem : c ∈ List.drop (k - i - 1) qt := by
        rw [hcr]
        exact List.mem_cons_self c rest
      exact List.drop_subset _ _ hmem
    rw [hcr] at hdrop
    rw [List.cons_append] at hdrop
    rw [hdrop] at hkp
    rw [List.isPrefixOf_iff_prefix, hp, List.cons_prefix_cons] at hkp
    rw [← hkp.1] at hcqt
    exact hqt hcqt
  · -- i = k : same position forces p = q
    subst hik
    have hpq : p = q := by
      have e1 : (s.drop i).take p.length = p := prefix_take_eq p _ hkp
      have e2 : (s.drop i).take q.length = q := prefix_take_eq q _ hiq
      rw [← e1, ← e2, hlen]
    exact hne hpq
  · -- k < i : the start of q's occurrence lies inside p's occurrence
    have hj1 : 1 ≤ i - k := by omega
    have hj2 : i - k < p.length := by omega
    have hplen : p.length = pt.length + 1 := by rw [hp]; simp
    rw [List.isPrefixOf_iff_prefix] at hkp
    obtain ⟨v, hv⟩ := hkp
    have hdrop : s.drop i = List.drop (i - k - 1) pt ++ v := by
      have e1 : s.drop i = (s.drop k).drop (i - k) := by
        rw [List.drop_drop]
        congr 1
        omega
      have e2 : List.drop (i - k) p = List.drop (i - k - 1) pt := by
        rw [hp]
        have e3 : i - k = (i - k - 1) + 1 := by omega
        rw [e3]
        simp
      rw [e1, ← hv, List.drop_append_of_le_length (by omega), e2]
    have hnn : List.drop (i - k - 1) pt ≠ [] := by
      intro hnil
      have := congrArg List.length hnil
      simp [List.length_drop] at this
      omega
    obtain ⟨c, rest, hcr⟩ := List.exists_cons_of_ne_nil hnn
    have hcpt : c ∈ pt := by
      have hmem : c ∈ List.drop (i - k - 1) pt := by
        rw [hcr]
        exact List.mem_cons_self c rest
      exact List.drop_subset _ _ hmem
    rw [hcr] at hdrop
    rw [List.cons_append] at hdrop
    rw [hdrop] at hiq
    rw [List.isPrefixOf_iff_prefix, hq, List.cons_prefix_cons] at hiq
    rw [← hiq.1] at hcpt
    exact hpt hcpt

/-- Replacing the first occurrence of token `q` cannot destroy an
occurrence of the non-overlapping token `p`. -/
theorem contains_of_replace1 (s new p q : GoStr) (pt qt : List Nat)
    (hp : p = 60 :: pt) (hq : q = 60 :: qt)
    (hpt : 60 ∉ pt) (hqt : 60 ∉ qt)
    (hlen : p.length = q.length) (hne : p ≠ q)
    (hocc : goContains s p = true) :
    goContains (goStringsReplace1 s q new) p = true := by
  cases hf : findSub s q with
  | none =>
      unfold goStringsReplace1
      rw [hf]
      exact hocc
  | some i =>
      have hrepl : goStringsReplace1 s q new =
          s.take i ++ new ++ s.drop (i + q.length) := by
        unfold goStringsReplace1
        rw [hf]
      rw [hrepl]
      obtain ⟨hqp, _⟩ := findSub_some s q i hf
      obtain ⟨k, hkp⟩ := (goContains_iff s p).1 hocc
      have hi_lt : i < s.length := by
        by_contra hge
        push_neg at hge
        have hd : s.drop i = [] := List.drop_eq_nil_of_le hge
        rw [hd, hq] at hqp
        simp at hqp
      have htk : (s.take i).length = i := by
        rw [List.length_take]
        omega
      rcases tok_no_overlap s p q pt qt i k hp hq hpt hqt hlen hne hqp hkp
        with hle | hle
      · -- occurrence of p lies strictly before the replaced segment
        apply (goContains_iff _ p).2
        refine ⟨k, ?_⟩
        have hk_le : k ≤ (s.take i).length := by
          rw [htk]
          have : 1 ≤ p.length := by rw [hp]; simp
          omega
        rw [List.append_assoc, List.drop_append_eq_append_drop]
        have h0 : k - (s.take i).length = 0 := by omega
        rw [h0, List.drop_zero]
        apply isPrefixOf_append_right
        rw [List.drop_take]
        exact isPrefixOf_take p _ _ hkp (by omega)
      · -- occurrence of p lies after the replaced segment
        apply (goContains_iff _ p).2
        refine ⟨i + new.length + (k - (i + q.length)), ?_⟩
        rw [List.append_assoc, List.drop_append_eq_append_drop]
        have h0 : (s.take i).drop (i + new.length + (k - (i + q.length))) = [] :=
          List.drop_eq_nil_of_le (by rw [htk]; omega)
        rw [h0, List.nil_append, htk, List.drop_append_eq_append_drop]
        have h1 : new.drop (i + new.length + (k - (i + q.length)) - i) = [] :=
          List.drop_eq_nil_of_le (by omega)
        rw [h1, List.nil_append, List.drop_drop]
        have h2 : i + q.length + (i + new.length + (k - (i + q.length)) - i - new.length) = k := by
          omega
        rw [h2]
        exact hkp

theorem contains_tokType_after_date_replace (s new : GoStr)
    (h : goContains s tokType = true) :
    goContains (goStringsReplace1 s tokDate new) tokType = true :=
  contains_of_replace1 s new tokType tokDate (strOf "type>") (strOf "date>")
    (by decide) (by decide) (by decide) (by decide) (by decide) (by decide) h

theorem contains_tokDate_after_type_replace (s new : GoStr)
    (h : goContains s tokDate = true) :
    goContains (goStringsReplace1 s tokType new) tokDate = true :=
  contains_of_replace1 s new tokDate tokType (strOf "date>") (strOf "type>")
    (by decide) (by decide) (by decide) (by decide) (by decide) (by decide) h

theorem sanitizeFilename_eq_map (s : GoStr) :
    sanitizeFilename s = s.map sanChar := by
  unfold sanitizeFilename goToLowerStr sanChar
  rw [List.map_map]
  rfl

theorem sanChar_class (c : Nat) : lowerClassB (sanChar c) = true := by
  unfold sanChar goToLowerRune wordDotB lowerClassB
  split_ifs <;> simp_all <;> omega

theorem sanChar_fix_of_class (c : Nat) (h : lowerClassB c = true) :
    sanChar c = c := by
  unfold lowerClassB at h
  rw [decide_eq_true_eq] at h
  unfold sanChar goToLowerRune wordDotB
  split_ifs <;> simp_all <;> omega

theorem sanChar_idem (c : Nat) : sanChar (sanChar c) = sanChar c :=
  sanChar_fix_of_class (sanChar c) (sanChar_class c)

theorem splitSlash_ne_nil (s : GoStr) : splitSlash s ≠ [] := by
  cases s with
  | nil => simp [splitSlash]
  | cons c tl =>
      unfold splitSlash
      split
      · simp
      · split <;> simp

theorem splitSlash_no_slash (s : GoStr) :
    ∀ x ∈ splitSlash s, 47 ∉ x := by
  induction s with
  | nil =>
      intro x hx
      simp [splitSlash] at hx
      simp [hx]
  | cons c tl ih =>
      intro x hx
      unfold splitSlash at hx
      by_cases hc : c = 47
      · rw [if_pos hc] at hx
        rcases List.mem_cons.1 hx with h | h
        · simp [h]
        · exact ih x h
      · rw [if_neg hc] at hx
        cases hsp : splitSlash tl with
        | nil => exact absurd hsp (splitSlash_ne_nil tl)
        | cons hd t =>
            rw [hsp] at hx
            rcases List.mem_cons.1 hx with h | h
            · subst h
              intro hmem
              rcases List.mem_cons.1 hmem with h47 | h47
              · exact hc h47.symm
              · exact ih hd (by rw [hsp]; exact List.mem_cons_self hd t) h47
            · exact ih x (by rw [hsp]; exact List.mem_cons_of_mem hd h)

theorem splitSlash_of_no_slash (s : GoStr) (h : 47 ∉ s) :
    splitSlash s = [s] := by
  induction s with
  | nil => simp [splitSlash]
  | cons c tl ih =>
      have hc : c ≠ 47 := fun hc => h (by rw [hc]; exact List.mem_cons_self _ _)
      have htl : 47 ∉ tl := fun hm => h (List.mem_cons_of_mem _ hm)
      unfold splitSlash
      rw [if_neg hc, ih htl]

theorem splitSlash_nil_eq : splitSlash [] = [[]] := rfl

theorem splitSlash_cons_eq (c : Nat) (tl : GoStr) :
    splitSlash (c :: tl) =
      if c = 47 then [] :: splitSlash tl
      else
        match splitSlash tl with
        | [] => [[c]]
        | h :: t => (c :: h) :: t := rfl

theorem splitSlash_append_slash (a b : GoStr) :
    splitSlash (a ++ 47 :: b) = splitSlash a ++ splitSlash b := by
  induction a with
  | nil =>
      rw [List.nil_append, splitSlash_cons_eq, if_pos rfl, splitSlash_nil_eq]
      rfl
  | cons c t ih =>
      rw [List.cons_append, splitSlash_cons_eq, splitSlash_cons_eq c t]
      by_cases hc : c = 47
      · rw [if_pos hc, if_pos hc, ih, List.cons_append]
      · rw [if_neg hc, if_neg hc, ih]
        rcases hsp : splitSlash t with _ | ⟨hd, tl⟩
        · exact absurd hsp (splitSlash_ne_nil t)
        · rfl

theorem noDoubleSlash_not_contains (s : GoStr) (h : noDoubleSlash s = true) :
    goContains s [47, 47] = false := by
  by_contra hc
  rw [Bool.not_eq_false] at hc
  obtain ⟨i, hi⟩ := (goContains_iff s [47, 47]).1 hc
  -- extract the two adjacent slashes and contradict `noDoubleSlash`
  induction s generalizing i with
  | nil =>
      rw [List.drop_nil] at hi
      simp at hi
  | cons a tl ih =>
      match i with
      | 0 =>
          rw [List.drop_zero, List.isPrefixOf_iff_prefix] at hi
          obtain ⟨u, hu⟩ := hi
          rw [← hu] at h
          rcases u with _ | ⟨x, v⟩ <;> simp [noDoubleSlash] at h
      | Nat.succ j =>
          have hi' : ([47, 47] : GoStr).isPrefixOf (tl.drop j) := by
            simpa using hi
          have htl : noDoubleSlash tl = true := by
            rcases tl with _ | ⟨b, t⟩
            · rfl
            · have := h
              simp only [noDoubleSlash, Bool.and_eq_true] at this
              exact this.2
          have hctl : goContains tl [47, 47] = true :=
            (goContains_iff tl [47, 47]).2 ⟨j, hi'⟩
          exact absurd (ih htl hctl j hi') (by simp [ih htl hctl j hi'])

theorem noDoubleSlash_of_no_slash (x : GoStr) (h : 47 ∉ x) :
    noDoubleSlash x = true := by
  induction x with
  | nil => rfl
  | cons a t ih =>
      have ha : a ≠ 47 := fun hh => h (by rw [hh]; exact List.mem_cons_self _ _)
      have ht : 47 ∉ t := fun hm => h (List.mem_cons_of_mem _ hm)
      rcases t with _ | ⟨b, r⟩
      · rfl
      · simp only [noDoubleSlash, Bool.and_eq_true]
        refine ⟨by simp [ha], ?_⟩
        exact ih ht

theorem noDoubleSlash_append_slash (x r : GoStr) (hx : 47 ∉ x)
    (hr : noDoubleSlash r = true) (hh : r.head? ≠ some 47) :
    noDoubleSlash (x ++ 47 :: r) = true := by
  induction x with
  | nil =>
      rw [List.nil_append]
      rcases r with _ | ⟨b, t⟩
      · rfl
      · have hb : b ≠ 47 := by
          intro hb
          exact hh (by rw [hb]; rfl)
        simp only [noDoubleSlash, Bool.and_eq_true]
        exact ⟨by simp [hb], hr⟩
  | cons a x' ih =>
      have ha : a ≠ 47 := fun hh2 => hx (by rw [hh2]; exact List.mem_cons_self _ _)
      have hx' : 47 ∉ x' := fun hm => hx (List.mem_cons_of_mem _ hm)
      rw [List.cons_append]
      have hnn : x' ++ 47 :: r ≠ [] := by simp
      obtain ⟨c, rest, hcr⟩ := List.exists_cons_of_ne_nil hnn
      rw [hcr]
      simp only [noDoubleSlash, Bool.and_eq_true]
      refine ⟨by simp [ha], ?_⟩
      rw [← hcr]
      exact ih hx'

theorem head_ne_slash_of_mem (x : GoStr) (hx : x ≠ []) (h47 : 47 ∉ x) :
    x.head? ≠ some 47 := by
  rcases x with _ | ⟨a, t⟩
  · simp at hx
  · have : a ≠ 47 := fun hh => h47 (by rw [hh]; exact List.mem_cons_self _ _)
    simpa using this

theorem noDoubleSlash_intercalate (L : List GoStr)
    (h : ∀ x ∈ L, x ≠ [] ∧ 47 ∉ x) :
    noDoubleSlash (goIntercalate [47] L) = true ∧
      (goIntercalate [47] L).head? ≠ some 47 := by
  induction L with
  | nil =>
      constructor
      · rfl
      · simp [goIntercalate]
  | cons x ys ih =>
      rcases ys with _ | ⟨y, t⟩
      · obtain ⟨hxn, hx47⟩ := h x (List.mem_cons_self _ _)
        exact ⟨noDoubleSlash_of_no_slash x hx47, head_ne_slash_of_mem x hxn hx47⟩
      · have hsub : ∀ z ∈ y :: t, z ≠ [] ∧ 47 ∉ z := by
          intro z hz
          exact h z (List.mem_cons_of_mem _ hz)
        obtain ⟨ihd, ihh⟩ := ih hsub
        obtain ⟨hxn, hx47⟩ := h x (List.mem_cons_self _ _)
        have hstep : goIntercalate [47] (x :: y :: t) =
            x ++ 47 :: goIntercalate [47] (y :: t) := by
          show x ++ [47] ++ goIntercalate [47] (y :: t) =
            x ++ 47 :: goIntercalate [47] (y :: t)
          rw [List.append_assoc]
          rfl
        rw [hstep]
        constructor
        · exact noDoubleSlash_append_slash x _ hx47 ihd ihh
        · rcases hx : x with _ | ⟨a, t2⟩
          · exact absurd hx hxn
          · have : a ≠ 47 := fun hh => hx47 (by rw [hx, hh]; exact List.mem_cons_self _ _)
            simpa using this

theorem cleanStackAux_cons_eq (rooted : Bool) (out : List GoStr) (e : GoStr)
    (es : List GoStr) :
    cleanStackAux rooted out (e :: es) =
      if e = [] ∨ e = [46] then cleanStackAux rooted out es
      else if e = [46, 46] then
        match out with
        | [] => if rooted then cleanStackAux rooted [] es
                else cleanStackAux rooted [e] es
        | top :: rest =>
            if top = [46, 46] then cleanStackAux rooted (e :: out) es
            else cleanStackAux rooted rest es
      else cleanStackAux rooted (e :: out) es := rfl

theorem cleanStackAux_cons_nil_eq (rooted : Bool) (e : GoStr) (es : List GoStr) :
    cleanStackAux rooted [] (e :: es) =
      if e = [] ∨ e = [46] then cleanStackAux rooted [] es
      else if e = [46, 46] then
        (if rooted then cleanStackAux rooted [] es else cleanStackAux rooted [e] es)
      else cleanStackAux rooted [e] es := rfl

theorem cleanStackAux_cons_cons_eq (rooted : Bool) (top : GoStr)
    (rest : List GoStr) (e : GoStr) (es : List GoStr) :
    cleanStackAux rooted (top :: rest) (e :: es) =
      if e = [] ∨ e = [46] then cleanStackAux rooted (top :: rest) es
      else if e = [46, 46] then
        (if top = [46, 46] then cleanStackAux rooted (e :: top :: rest) es
         else cleanStackAux rooted rest es)
      else cleanStackAux rooted (e :: top :: rest) es := rfl

theorem cleanStackAux_mem (rooted : Bool) (es out : List GoStr)
    (hout : ∀ x ∈ out, x ≠ [] ∧ 47 ∉ x)
    (hes : ∀ e ∈ es, 47 ∉ e) :
    ∀ x ∈ cleanStackAux rooted out es, x ≠ [] ∧ 47 ∉ x := by
  induction es generalizing out with
  | nil =>
      intro x hx
      exact hout x hx
  | cons e es' ih =>
      have hes' : ∀ z ∈ es', 47 ∉ z := fun z hz => hes z (List.mem_cons_of_mem _ hz)
      have he : 47 ∉ e := hes e (List.mem_cons_self _ _)
      have hePe : ¬(e = [] ∨ e = [46]) → e ≠ [] ∧ 47 ∉ e := fun h1 =>
        ⟨fun hz => h1 (Or.inl hz), he⟩
      intro x hx
      rcases out with _ | ⟨top, rest⟩
      · rw [cleanStackAux_cons_nil_eq] at hx
        by_cases h1 : e = [] ∨ e = [46]
        · rw [if_pos h1] at hx
          exact ih [] hout hes' x hx
        · rw [if_neg h1] at hx
          by_cases h2 : e = [46, 46]
          · rw [if_pos h2] at hx
            by_cases h3 : rooted
            · rw [if_pos h3] at hx
              exact ih [] hout hes' x hx
            · rw [if_neg h3] at hx
              refine ih [e] ?_ hes' x hx
              intro z hz
              rw [List.mem_singleton] at hz
              subst hz
              exact hePe h1
          · rw [if_neg h2] at hx
            refine ih [e] ?_ hes' x hx
            intro z hz
            rw [List.mem_singleton] at hz
            subst hz
            exact hePe h1
      · rw [cleanStackAux_cons_cons_eq] at hx
        by_cases h1 : e = [] ∨ e = [46]
        · rw [if_pos h1] at hx
          exact ih _ hout hes' x hx
        · rw [if_neg h1] at hx
          by_cases h2 : e = [46, 46]
          · rw [if_pos h2] at hx
            by_cases h4 : top = [46, 46]
            · rw [if_pos h4] at hx
              refine ih (e :: top :: rest) ?_ hes' x hx
              intro z hz
              rcases List.mem_cons.1 hz with hz1 | hz1
              · subst hz1
                exact hePe h1
              · exact hout z hz1
            · rw [if_neg h4] at hx
              refine ih rest ?_ hes' x hx
              intro z hz
              exact hout z (List.mem_cons_of_mem _ hz)
          · rw [if_neg h2] at hx
            refine ih (e :: top :: rest) ?_ hes' x hx
            intro z hz
            rcases List.mem_cons.1 hz with hz1 | hz1
            · subst hz1
              exact hePe h1
            · exact hout z hz1

theorem cleanStackAux_no_pop (rooted : Bool) (es out : List GoStr)
    (h : ∀ e ∈ es, e ≠ [46, 46]) :
    cleanStackAux rooted out es = (es.filter pushableB).reverse ++ out := by
  induction es generalizing out with
  | nil => simp [cleanStackAux]
  | cons e es' ih =>
      have h' : ∀ z ∈ es', z ≠ [46, 46] := fun z hz => h z (List.mem_cons_of_mem _ hz)
      have he : e ≠ [46, 46] := h e (List.mem_cons_self _ _)
      rw [cleanStackAux_cons_eq]
      by_cases h1 : e = [] ∨ e = [46]
      · rw [if_pos h1, ih out h']
        have hpf : pushableB e = false := by
          unfold pushableB
          rcases h1 with h1 | h1 <;> subst h1 <;> rfl
        rw [List.filter_cons_of_neg (by rw [hpf]; simp)]
      · rw [if_neg h1, if_neg he, ih (e :: out) h']
        have hpt : pushableB e = true := by
          unfold pushableB
          rw [Bool.not_eq_true']
          rw [Bool.or_eq_false_iff]
          constructor
          · rw [decide_eq_false_iff_not]
            intro hz
            exact h1 (Or.inl hz)
          · rw [decide_eq_false_iff_not]
            intro hz
            exact h1 (Or.inr hz)
        rw [List.filter_cons_of_pos (by rw [hpt])]
        rw [List.reverse_cons, List.append_assoc]
        rfl

theorem goPathClean_noDoubleSlash (s : GoStr) :
    noDoubleSlash (goPathClean s) = true := by
  unfold goPathClean
  by_cases hs : s = []
  · rw [if_pos hs]
    rfl
  · rw [if_neg hs]
    by_cases hro : s.head? = some 47
    · rw [if_pos hro]
      have hmem : ∀ x ∈ (cleanStackAux true [] (splitSlash s)).reverse,
          x ≠ [] ∧ 47 ∉ x := by
        intro x hx
        rw [List.mem_reverse] at hx
        exact cleanStackAux_mem true (splitSlash s) []
          (by intro z hz; simp at hz)
          (fun e hes => splitSlash_no_slash s e hes) x hx
      obtain ⟨hbody, hhead⟩ := noDoubleSlash_intercalate _ hmem
      rcases hb : goIntercalate [47] ((cleanStackAux true [] (splitSlash s)).reverse)
          with _ | ⟨b, t⟩
      · rfl
      · rw [hb] at hbody hhead
        simp only [noDoubleSlash, Bool.and_eq_true]
        constructor
        · have hb47 : b ≠ 47 := fun hbb => hhead (by rw [hbb]; rfl)
          simp [hb47]
        · exact hbody
    · rw [if_neg hro]
      have hmem : ∀ x ∈ (cleanStackAux false [] (splitSlash s)).reverse,
          x ≠ [] ∧ 47 ∉ x := by
        intro x hx
        rw [List.mem_reverse] at hx
        exact cleanStackAux_mem false (splitSlash s) []
          (by intro z hz; simp at hz)
          (fun e hes => splitSlash_no_slash s e hes) x hx
      by_cases hbe : goIntercalate [47] ((cleanStackAux false [] (splitSlash s)).reverse) = []
      · rw [if_pos hbe]
        rfl
      · rw [if_neg hbe]
        exact (noDoubleSlash_intercalate _ hmem).1

theorem goFilepathJoin_no_double_slash (elems : List GoStr) :
    goContains (goFilepathJoin elems) [47, 47] = false := by
  unfold goFilepathJoin
  cases hd : elems.dropWhile (fun e => e = []) with
  | nil => rfl
  | cons x xs =>
      exact noDoubleSlash_not_contains _ (goPathClean_noDoubleSlash _)

theorem not_contains_scheme_sep (s : GoStr)
    (h : goContains s [47, 47] = false) :
    goContains s (strOf "://") = false := by
  by_contra hc
  rw [Bool.not_eq_false] at hc
  obtain ⟨i, hi⟩ := (goContains_iff s (strOf "://")).1 hc
  have hi3 : ([58, 47, 47] : GoStr).isPrefixOf (s.drop i) := hi
  rw [List.isPrefixOf_iff_prefix] at hi3
  obtain ⟨u, hu⟩ := hi3
  have h2 : ([47, 47] : GoStr).isPrefixOf (s.drop (i + 1)) := by
    have e1 : s.drop (i + 1) = (s.drop i).drop 1 := by
      rw [List.drop_drop]
    rw [e1, ← hu]
    rw [List.isPrefixOf_iff_prefix]
    exact ⟨u, rfl⟩
  have : goContains s [47, 47] = true :=
    (goContains_iff s [47, 47]).2 ⟨i + 1, h2⟩
  rw [h] at this
  exact Bool.false_ne_true this

theorem makePathFromTemplate_eq (t : GoStr) (pd : PathParts) :
    makePathFromTemplate t pd =
      (if pd.date ≠ [] then
        goStringsReplace1
          (if pd.ty ≠ [] then goStringsReplace1 t tokType (goTrimSpaces pd.ty)
           else t) tokDate pd.date
       else
        (if pd.ty ≠ [] then goStringsReplace1 t tokType (goTrimSpaces pd.ty)
         else t)) := rfl

/-- C7: `MakePathFromTemplate` substitutes `<type>` (with the trimmed
type) before `<date>`, each at most once — the result is obtained from
the template by at most one `<type>` replacement followed by at most one
`<date>` replacement — and re-applying it to a string containing
neither token returns that string unchanged. -/
theorem C7_templater_order_once_idem :
    (∀ (t : GoStr) (pd : PathParts), ∃ t1 : GoStr,
      (t1 = t ∨ ∃ pre suf, t = pre ++ tokType ++ suf ∧
          t1 = pre ++ goTrimSpaces pd.ty ++ suf) ∧
      (makePathFromTemplate t pd = t1 ∨ ∃ pre suf, t1 = pre ++ tokDate ++ suf ∧
          makePathFromTemplate t pd = pre ++ pd.date ++ suf)) ∧
    (∀ (s : GoStr) (pd : PathParts), goContains s tokType = false →
      goContains s tokDate = false → makePathFromTemplate s pd = s) := by
  constructor
  · intro t pd
    refine ⟨if pd.ty ≠ [] then goStringsReplace1 t tokType (goTrimSpaces pd.ty)
      else t, ?_, ?_⟩
    · by_cases hty : pd.ty = []
      · left
        rw [if_neg (by simp [hty])]
      · rw [if_pos hty]
        rcases replace1_decomp t tokType (goTrimSpaces pd.ty) with hsame | hdec
        · left
          exact hsame
        · right
          exact hdec
    · rw [makePathFromTemplate_eq]
      by_cases hdt : pd.date = []
      · left
        rw [if_neg (by simp [hdt])]
      · rw [if_pos hdt]
        rcases replace1_decomp
            (if pd.ty ≠ [] then goStringsReplace1 t tokType (goTrimSpaces pd.ty)
             else t) tokDate pd.date with hsame | hdec
        · left
          exact hsame
        · right
          exact hdec
  · intro s pd h1 h2
    rw [makePathFromTemplate_eq]
    have e1 : (if pd.ty ≠ [] then goStringsReplace1 s tokType (goTrimSpaces pd.ty)
        else s) = s := by
      split_ifs
      · exact replace1_of_not_contains s tokType _ h1
      · rfl
    rw [e1]
    split_ifs
    · exact replace1_of_not_contains s tokDate _ h2
    · rfl

theorem C7_witness :
    goContains (strOf "static/blog") tokType = false ∧
    goContains (strOf "static/blog") tokDate = false ∧
    makePathFromTemplate (strOf "static/blog")
      ⟨strOf "2020/01", strOf "blog"⟩ = strOf "static/blog" :=
  ⟨by decide, by decide,
    C7_templater_order_once_idem.2 (strOf "static/blog")
      ⟨strOf "2020/01", strOf "blog"⟩ (by decide) (by decide)⟩

/-- C8 as stated is false on the empty input: the sanitized result is
empty and an empty string does not match `[a-z0-9_.]+`. -/
theorem C8_counterexample :
    sanitizeFilename [] = [] ∧
      matchesLowerClassPlus (sanitizeFilename []) = false :=
  ⟨rfl, rfl⟩

/-- C8 (amended): sanitization is idempotent, every output character
lies in `[a-z0-9_.]`, the length is preserved, and hence the output
matches `[a-z0-9_.]+` for every NONEMPTY input (the empty input yields
the empty string, which matches only `[a-z0-9_.]*`). -/
theorem C8_sanitize_idem_lower_class :
    ∀ s : GoStr,
      sanitizeFilename (sanitizeFilename s) = sanitizeFilename s ∧
      (sanitizeFilename s).all lowerClassB = true ∧
      (sanitizeFilename s).length = s.length ∧
      (s ≠ [] → matchesLowerClassPlus (sanitizeFilename s) = true) := by
  intro s
  have hall : (sanitizeFilename s).all lowerClassB = true := by
    rw [sanitizeFilename_eq_map, List.all_eq_true]
    intro x hx
    obtain ⟨a, _, rfl⟩ := List.mem_map.1 hx
    exact sanChar_class a
  have hlen : (sanitizeFilename s).length = s.length := by
    rw [sanitizeFilename_eq_map, List.length_map]
  refine ⟨?_, hall, hlen, ?_⟩
  · rw [sanitizeFilename_eq_map, sanitizeFilename_eq_map, List.map_map]
    apply List.map_congr_left
    intro a _
    show sanChar (sanChar a) = sanChar a
    exact sanChar_idem a
  · intro hne
    have hne2 : sanitizeFilename s ≠ [] := by
      intro h0
      rw [h0] at hlen
      exact hne (List.length_eq_zero.1 hlen.symm)
    unfold matchesLowerClassPlus
    rw [hall, Bool.and_true]
    cases hM : (sanitizeFilename s).isEmpty with
    | false => rfl
    | true => exact absurd (List.isEmpty_iff.1 hM) hne2

theorem C8_witness :
    (strOf "A b.PNG" ≠ ([] : GoStr)) ∧
    matchesLowerClassPlus (sanitizeFilename (strOf "A b.PNG")) = true :=
  ⟨by decide, (C8_sanitize_idem_lower_class (strOf "A b.PNG")).2.2.2 (by decide)⟩

/-- C9: an empty type (resp. date) field makes the templater perform no
substitution for that token — a literal `<type>` survives a date-only
instantiation and a literal `<date>` survives a type-only one — and
`SaveImage` instantiates `ImageDir` with only the date set (`PathParts`
zero value for `Type`), so image destination directories keep any
`<type>` token unsubstituted. -/
theorem C9_empty_field_no_substitution :
    (∀ (t d : GoStr), goContains t tokType = true →
      goContains (makePathFromTemplate t ⟨d, []⟩) tokType = true) ∧
    (∀ (t ty : GoStr), goContains t tokDate = true →
      goContains (makePathFromTemplate t ⟨[], ty⟩) tokDate = true) ∧
    (∀ (cfg : Config) (post : Post),
      saveImageDir cfg post =
        makePathFromTemplate cfg.imageDir
          ⟨makeDatePathPart cfg.datePathFmt post.date, []⟩) ∧
    (∀ (cfg : Config) (post : Post), goContains cfg.imageDir tokType = true →
      goContains (saveImageDir cfg post) tokType = true) := by
  have part1 : ∀ (t d : GoStr), goContains t tokType = true →
      goContains (makePathFromTemplate t ⟨d, []⟩) tokType = true := by
    intro t d h
    rw [makePathFromTemplate_eq]
    simp only []
    rw [if_neg (by simp : ¬ (PathParts.mk d []).ty ≠ [])]
    split_ifs
    · exact contains_tokType_after_date_replace t d h
    · exact h
  refine ⟨part1, ?_, ?_, ?_⟩
  · intro t ty h
    rw [makePathFromTemplate_eq]
    simp only []
    rw [if_neg (by simp : ¬ (PathParts.mk [] ty).date ≠ [])]
    split_ifs
    · exact contains_tokDate_after_type_replace t (goTrimSpaces ty) h
    · exact h
  · intro cfg post
    rfl
  · intro cfg post h
    exact part1 cfg.imageDir (makeDatePathPart cfg.datePathFmt post.date) h

theorem C9_witness :
    goContains (strOf "img/<type>/<date>") tokType = true ∧
    goContains
      (makePathFromTemplate (strOf "img/<type>/<date>") ⟨strOf "2020/01", []⟩)
      tokType = true :=
  ⟨by decide,
    C9_empty_field_no_substitution.1 (strOf "img/<type>/<date>")
      (strOf "2020/01") (by decide)⟩

theorem SaveImage_ok_of_decodable (cfg : Config) (post : Post) (img : Image)
    (hdec : goImageDecodable img.data = true) :
    SaveImage cfg post img =
      .ok
        { img with
          path := goFilepathJoin [saveImageDir cfg post, img.name]
          url := goFilepathJoin [cfg.baseURL, cfg.imagePath,
            makeDatePathPart cfg.datePathFmt post.date, img.name] }
        (goFilepathJoin [saveImageDir cfg post, img.name])
        (normalizeJpeg cfg.maxImgWidth img.data) := by
  unfold SaveImage
  rw [hdec]
  rfl

/-- C6: on a match (the image's origin identifier — `OrigName` or
`OrigURL` — equals the captured locator) the rewriting step replaces
exactly the first occurrence of the capture in the post body by the
image's public URL: the body splits at the first occurrence (no earlier
occurrence exists) and only that occurrence is rewritten, the suffix —
holding any later occurrences of the locator — surviving verbatim. -/
theorem C6_replace_first_occurrence (cfg : Config) (cap : GoStr) (post : Post)
    (img : Image) (idx : Nat) (evs : List REv) (i : Nat)
    (hmatch : img.origName = cap ∨ img.origURL = cap)
    (hdec : goImageDecodable img.data = true)
    (hfind : findSub post.data cap = some i) :
    ∃ img2 evs2,
      RefMatchStep cfg cap post img idx evs =
        .ok ({ post with data := post.data.take i ++ img2.url ++
                 post.data.drop (i + cap.length) }, img2, evs2) ∧
      post.data = post.data.take i ++ cap ++ post.data.drop (i + cap.length) ∧
      (∀ j, j < i → ¬ cap.isPrefixOf (post.data.drop j)) := by
  obtain ⟨hp, hmin⟩ := findSub_some post.data cap i hfind
  have hrepl : ∀ u : GoStr, goStringsReplace1 post.data cap u =
      post.data.take i ++ u ++ post.data.drop (i + cap.length) := by
    intro u
    unfold goStringsReplace1
    rw [hfind]
  refine ⟨{ img with
      path := goFilepathJoin [saveImageDir cfg post, img.name]
      url := goFilepathJoin [cfg.baseURL, cfg.imagePath,
        makeDatePathPart cfg.datePathFmt post.date, img.name] },
    evs ++ [.save idx (goFilepathJoin [saveImageDir cfg post, img.name])
      (goFilepathJoin [cfg.baseURL, cfg.imagePath,
        makeDatePathPart cfg.datePathFmt post.date, img.name])
      (normalizeJpeg cfg.maxImgWidth img.data)], ?_, ?_, hmin⟩
  · unfold RefMatchStep
    rw [if_pos hmatch, SaveImage_ok_of_decodable cfg post img hdec]
    simp only [hrepl]
  · exact prefix_drop_decomp post.data cap i hp

theorem C6_witness :
    (imgEx.origName = strOf "a.jpg" ∨ imgEx.origURL = strOf "a.jpg") ∧
    goImageDecodable imgEx.data = true ∧
    findSub (strOf "a.jpg and a.jpg") (strOf "a.jpg") = some 0 ∧
    (∃ img2 evs2,
      RefMatchStep cfgEx (strOf "a.jpg") { postEx1 with data := strOf "a.jpg and a.jpg" }
          imgEx 0 [] =
        .ok ({ { postEx1 with data := strOf "a.jpg and a.jpg" } with
                 data := (strOf "a.jpg and a.jpg").take 0 ++ img2.url ++
                   (strOf "a.jpg and a.jpg").drop (0 + (strOf "a.jpg").length) },
              img2, evs2) ∧
      strOf "a.jpg and a.jpg" =
        (strOf "a.jpg and a.jpg").take 0 ++ strOf "a.jpg" ++
          (strOf "a.jpg and a.jpg").drop (0 + (strOf "a.jpg").length) ∧
      (∀ j, j < 0 → ¬ (strOf "a.jpg").isPrefixOf ((strOf "a.jpg and a.jpg").drop j))) :=
  ⟨by decide, by decide, by decide,
    C6_replace_first_occurrence cfgEx (strOf "a.jpg")
      { postEx1 with data := strOf "a.jpg and a.jpg" } imgEx 0 [] 0
      (by decide) (by decide) (by decide)⟩

/-- C1 as stated is false: one image referenced by two posts is
materialized twice.  In this run the single image (index 0) gets two
`save` events — `SaveImage` runs again although `resolvedPath`/`publicURL`
were already set by the first post — and the URL stored by the second
save is recomputed from the second post's date (2021/03) instead of
being reused verbatim from the first (2020/01). -/
theorem C1_counterexample :
    (match ReplaceImageRefs (fun _ => [strOf "a.jpg"]) (fun _ => [])
        (fun _ => []) cfgEx [postEx1, postEx2] [imgEx] [] with
      | .ok (_, _, evs) => (saveIdxs evs, saveURLs evs)
      | .error _ => ([], [])) =
    ([0, 0],
     [strOf "http:/example.com/media/2020/01/a.jpg",
      strOf "http:/example.com/media/2021/03/a.jpg"]) := by decide

/-- C1 (amended): on EVERY match the step invokes `SaveImage` — there
is no already-materialized guard — and the image's path and URL are
recomputed from the CURRENT post's date, overwriting whatever `url` and
`path` the image already carried, with a materialization event emitted
each time. -/
theorem C1_amended_resave_every_match (cfg : Config) (cap : GoStr)
    (post : Post) (img : Image) (idx : Nat) (evs : List REv)
    (hmatch : img.origName = cap ∨ img.origURL = cap)
    (hdec : goImageDecodable img.data = true) :
    RefMatchStep cfg cap post img idx evs =
      .ok ({ post with data := goStringsReplace1 post.data cap (saveImageURL cfg post img) },
           { img with
             path := saveImagePath cfg post img
             url := saveImageURL cfg post img },
           evs ++ [.save idx (saveImagePath cfg post img) (saveImageURL cfg post img)
             (normalizeJpeg cfg.maxImgWidth img.data)]) := by
  unfold RefMatchStep
  rw [if_pos hmatch, SaveImage_ok_of_decodable cfg post img hdec]
  rfl

theorem C1_witness :
    (imgSetEx.origName = strOf "a.jpg" ∨ imgSetEx.origURL = strOf "a.jpg") ∧
    goImageDecodable imgSetEx.data = true ∧
    RefMatchStep cfgEx (strOf "a.jpg") postEx2 imgSetEx 0 [] =
      .ok ({ postEx2 with data := goStringsReplace1 postEx2.data (strOf "a.jpg") (saveImageURL cfgEx postEx2 imgSetEx) },
           { imgSetEx with
             path := saveImagePath cfgEx postEx2 imgSetEx
             url := saveImageURL cfgEx postEx2 imgSetEx },
           [] ++ [.save 0 (saveImagePath cfgEx postEx2 imgSetEx)
             (saveImageURL cfgEx postEx2 imgSetEx)
             (normalizeJpeg cfgEx.maxImgWidth imgSetEx.data)]) :=
  ⟨by decide, by decide,
    C1_amended_resave_every_match cfgEx (strOf "a.jpg") postEx2 imgSetEx 0 []
      (by decide) (by decide)⟩

/-- C2: the claim is right and the code wrong — when the image bytes
fail to decode, `SaveImage` logs the error but does not return: it
calls `img.Bounds()` on the nil decoded image and panics the whole run
(main.go lines 379-385), instead of skipping the image.  Evaluated at
the failing input `Data = [1,2,3]` (no JPEG/PNG magic). -/
theorem C2_decode_failure_panics :
    SaveImage cfgEx postEx1 { imgEx with data := [1, 2, 3] } =
      .panicked { imgEx with
        data := [1, 2, 3]
        path := strOf "static/img/2020/01/a.jpg"
        url := strOf "http:/example.com/media/2020/01/a.jpg" } := by decide

/-- C3: the claim is right and the code wrong — `ExtractPostData`
checks only the `yaml.Unmarshal` error; a text part whose front matter
parses but has no (or an empty) `title` still yields a Post.  At the
failing input `"date: 2020-01-02"` the front matter parses with an
empty title, one Post with empty title enters the working set, and its
markdown filename degenerates to `.md`. -/
theorem C3_empty_title_post_enters :
    yamlParseT (strOf "date: 2020-01-02") =
      some { title := [], date := strOf "2020-01-02", ty := [] } ∧
    (ExtractPostData cfgEx [] (strOf "date: 2020-01-02")).map Post.title =
      [[]] ∧
    (ExtractPostData cfgEx [] (strOf "date: 2020-01-02")).map Post.file =
      [strOf ".md"] := by
  exact ⟨by decide, by decide, by decide⟩

/-- C4: the claim is right and the code wrong — on the first non-200
response `RetrieveImages` logs and `return`s, abandoning the remaining
URLs of the same post and all later posts.  Evaluated at a failing
input where the first of two URLs of the first post returns 500 and
the others would return 200: the pass ends early with NO image
collected (a transport error would even dereference the nil
response in the log call). -/
theorem C4_one_bad_fetch_aborts_pass :
    RetrieveImages
      (fun _ => [strOf "http://h/a.png", strOf "http://h/b.png"])
      (fun u => if u = strOf "http://h/a.png" then .resp 500 []
        else .resp 200 [255, 216, 255])
      [postEx1, postEx2] [] = .earlyReturn [] := by decide

/-- C5 as stated is false: a malformed image part — undecodable base64,
the read-error flag set — is NOT fatal.  `ioutil.ReadAll`'s error is
assigned and never checked (main.go line 204), so the partial bytes are
kept, the Image is still collected, and the walk continues normally. -/
theorem C5_counterexample :
    ExtractAttachment cfgEx
      (.cons (strOf "image/jpeg") (strOf "Pic 1.PNG") [1, 2] true [] false .nil .nil)
      ⟨[], []⟩ =
    .ok ⟨[{ origURL := [], origName := strOf "Pic 1.PNG",
            name := strOf "pic_1.jpg", path := [], url := [], data := [1, 2] }],
         []⟩ := rfl

/-- C5 (amended): an unreadable part/boundary (`NextPart` error) is
fatal to the whole run, and so is a failed copy of a text part's body;
but an image part whose base64 body is undecodable is NOT fatal — the
read error is silently discarded, the partially decoded bytes are kept
as the image data, and extraction continues with the remaining parts. -/
theorem C5_amended_fatality (cfg : Config) :
    (∀ st : MState, ExtractAttachment cfg .errCons st = .error .parsePart) ∧
    (∀ (fn : GoStr) (d : List Nat) (txt : GoStr) (cerr : Bool)
        (sub rest : PartTree) (st : MState),
      ExtractAttachment cfg
          (.cons (strOf "image/jpeg") fn d true txt cerr sub rest) st =
        ExtractAttachment cfg rest
          { st with images := ExtractImageData st.images ⟨[], fn, [], [], [], d⟩ }) ∧
    (∀ (fn : GoStr) (d : List Nat) (berr : Bool) (txt : GoStr)
        (sub rest : PartTree) (st : MState),
      ExtractAttachment cfg
          (.cons (strOf "text/plain") fn d berr txt true sub rest) st =
        .error .copyBody) := by
  refine ⟨fun st => rfl, fun fn d txt cerr sub rest st => ?_, 
    fun fn d berr txt sub rest st => ?_⟩
  · rfl
  · rfl

/-- C10 as stated is false at `BaseURL = "http://.."`: the `..` path
element cancels the `http:` element during cleaning, so the stored URL
contains no `http:/` at all. -/
theorem C10_counterexample :
    goContains cfgDots.baseURL (strOf "http://") = true ∧
    (SaveImage cfgDots postEx1 imgEx).image.url = strOf "media/2020/01/a.jpg" ∧
    goContains ((SaveImage cfgDots postEx1 imgEx).image.url)
      (strOf "http:/") = false := by
  exact ⟨by decide, by decide, by decide⟩

theorem goContains_of_isPrefixOf (s pat : GoStr) (h : pat.isPrefixOf s) :
    goContains s pat = true :=
  (goContains_iff s pat).2 ⟨0, by simpa using h⟩

theorem isPrefixOf_self (p : GoStr) : p.isPrefixOf p := by
  rw [List.isPrefixOf_iff_prefix]

theorem goFilepathJoin_head_ne_nil (b : GoStr) (rest : List GoStr)
    (hb : b ≠ []) :
    goFilepathJoin (b :: rest) = goPathClean (goIntercalate [47] (b :: rest)) := by
  unfold goFilepathJoin
  have hd : (b :: rest).dropWhile (fun e => e = []) = b :: rest := by
    rw [List.dropWhile_cons]
    simp [hb]
  rw [hd]

theorem goPathClean_no_dotdot (s : GoStr) (hne : s ≠ [])
    (hnr : ¬ s.head? = some 47)
    (hdd : ∀ x ∈ splitSlash s, x ≠ [46, 46])
    (hbody : goIntercalate [47] ((splitSlash s).filter pushableB) ≠ []) :
    goPathClean s = goIntercalate [47] ((splitSlash s).filter pushableB) := by
  unfold goPathClean
  rw [if_neg hne, if_neg hnr]
  have hstack : cleanStackAux false [] (splitSlash s) =
      ((splitSlash s).filter pushableB).reverse := by
    rw [cleanStackAux_no_pop false (splitSlash s) [] hdd]
    simp
  rw [hstack, List.reverse_reverse, if_neg hbody]

/-- C10 (amended): the public URL stored by `SaveImage` is exactly
`filepath.Join(BaseURL, ImagePath, datePathPart, name)`; joining Cleans
the path, which collapses consecutive slashes, so the stored URL never
contains `//` — in particular the `://` separator is never preserved
intact; and for every BaseURL of the form `http://<host>` with a plain
host element (nonempty, slash-free, neither `.` nor `..`), provided no
later component contributes a `..` segment, the URL contains `http:/`
with its single slash. -/
theorem C10_public_url_single_slash :
    (∀ (cfg : Config) (post : Post) (img : Image),
      (SaveImage cfg post img).image.url =
        goFilepathJoin [cfg.baseURL, cfg.imagePath,
          makeDatePathPart cfg.datePathFmt post.date, img.name] ∧
      goContains ((SaveImage cfg post img).image.url) [47, 47] = false ∧
      goContains ((SaveImage cfg post img).image.url) (strOf "://") = false) ∧
    (∀ (cfg : Config) (post : Post) (img : Image) (h : GoStr),
      cfg.baseURL = strOf "http://" ++ h →
      h ≠ [] → 47 ∉ h → h ≠ [46] → h ≠ [46, 46] →
      (∀ x ∈ splitSlash cfg.imagePath, x ≠ [46, 46]) →
      (∀ x ∈ splitSlash (makeDatePathPart cfg.datePathFmt post.date),
        x ≠ [46, 46]) →
      (∀ x ∈ splitSlash img.name, x ≠ [46, 46]) →
      goContains ((SaveImage cfg post img).image.url) (strOf "http:/") = true) := by
  have hurl : ∀ (cfg : Config) (post : Post) (img : Image),
      (SaveImage cfg post img).image.url =
        goFilepathJoin [cfg.baseURL, cfg.imagePath,
          makeDatePathPart cfg.datePathFmt post.date, img.name] := by
    intro cfg post img
    unfold SaveImage
    split_ifs <;> rfl
  constructor
  · intro cfg post img
    have h2 : goContains ((SaveImage cfg post img).image.url) [47, 47] = false := by
      rw [hurl]
      exact goFilepathJoin_no_double_slash _
    exact ⟨hurl cfg post img, h2, not_contains_scheme_sep _ h2⟩
  · intro cfg post img h hb hh0 hh47 hh1 hh2 hipd hdpd hnmd
    rw [hurl, hb]
    have hbne : strOf "http://" ++ h ≠ [] := by
      have e0 : strOf "http://" ++ h = 104 :: (strOf "ttp://" ++ h) := rfl
      rw [e0]
      simp
    rw [goFilepathJoin_head_ne_nil _ _ hbne]
    -- names for the remaining components
    have e1a : goIntercalate [47] [strOf "http://" ++ h, cfg.imagePath,
        makeDatePathPart cfg.datePathFmt post.date, img.name] =
        ((strOf "http://" ++ h) ++ [47]) ++ goIntercalate [47] [cfg.imagePath,
          makeDatePathPart cfg.datePathFmt post.date, img.name] := rfl
    have e1b : goIntercalate [47] [cfg.imagePath,
        makeDatePathPart cfg.datePathFmt post.date, img.name] =
        (cfg.imagePath ++ [47]) ++ goIntercalate [47]
          [makeDatePathPart cfg.datePathFmt post.date, img.name] := rfl
    have e1c : goIntercalate [47]
        [makeDatePathPart cfg.datePathFmt post.date, img.name] =
        (makeDatePathPart cfg.datePathFmt post.date ++ [47]) ++ img.name := rfl
    have hsplit : splitSlash (goIntercalate [47] [strOf "http://" ++ h,
        cfg.imagePath, makeDatePathPart cfg.datePathFmt post.date, img.name]) =
        strOf "http:" :: [] :: h :: (splitSlash cfg.imagePath ++
          (splitSlash (makeDatePathPart cfg.datePathFmt post.date) ++
            splitSlash img.name)) := by
      rw [e1a, List.append_assoc, List.singleton_append, splitSlash_append_slash]
      rw [e1b, List.append_assoc, List.singleton_append, splitSlash_append_slash]
      rw [e1c, List.append_assoc, List.singleton_append, splitSlash_append_slash]
      have e3 : strOf "http://" ++ h = strOf "http:" ++ 47 :: (47 :: h) := rfl
      rw [e3, splitSlash_append_slash]
      have e4 : splitSlash (strOf "http:") = [strOf "http:"] := by decide
      have e5 : splitSlash ((47 : Nat) :: h) = [] :: splitSlash h := by
        rw [splitSlash_cons_eq, if_pos rfl]
      rw [e4, e5, splitSlash_of_no_slash h hh47]
      rfl
    have hh104 : (goIntercalate [47] [strOf "http://" ++ h, cfg.imagePath,
        makeDatePathPart cfg.datePathFmt post.date, img.name]).head? =
        some 104 := by
      rw [e1a]
      have e0 : strOf "http://" ++ h = 104 :: (strOf "ttp://" ++ h) := rfl
      rw [e0]
      rfl
    have hne : goIntercalate [47] [strOf "http://" ++ h, cfg.imagePath,
        makeDatePathPart cfg.datePathFmt post.date, img.name] ≠ [] := by
      intro h0
      rw [h0] at hh104
      simp at hh104
    have hnr : ¬ (goIntercalate [47] [strOf "http://" ++ h, cfg.imagePath,
        makeDatePathPart cfg.datePathFmt post.date, img.name]).head? =
        some 47 := by
      rw [hh104]
      simp
    have hdd : ∀ x ∈ splitSlash (goIntercalate [47] [strOf "http://" ++ h,
        cfg.imagePath, makeDatePathPart cfg.datePathFmt post.date, img.name]),
        x ≠ [46, 46] := by
      rw [hsplit]
      intro x hx
      rcases List.mem_cons.1 hx with rfl | hx
      · decide
      rcases List.mem_cons.1 hx with rfl | hx
      · decide
      rcases List.mem_cons.1 hx with rfl | hx
      · exact hh2
      rcases List.mem_append.1 hx with hx | hx
      · exact hipd x hx
      rcases List.mem_append.1 hx with hx | hx
      · exact hdpd x hx
      · exact hnmd x hx
    have hph : pushableB h = true := by
      unfold pushableB
      simp [hh0, hh1]
    have hfil : (strOf "http:" :: [] :: h :: (splitSlash cfg.imagePath ++
        (splitSlash (makeDatePathPart cfg.datePathFmt post.date) ++
          splitSlash img.name))).filter pushableB =
        strOf "http:" :: h :: ((splitSlash cfg.imagePath ++
          (splitSlash (makeDatePathPart cfg.datePathFmt post.date) ++
            splitSlash img.name)).filter pushableB) := by
      rw [List.filter_cons_of_pos (by decide), List.filter_cons_of_neg (by decide),
        List.filter_cons_of_pos hph]
    have hbody : goIntercalate [47] ((splitSlash (goIntercalate [47]
        [strOf "http://" ++ h, cfg.imagePath,
         makeDatePathPart cfg.datePathFmt post.date, img.name])).filter
          pushableB) ≠ [] := by
      rw [hsplit, hfil]
      intro h0
      have h104 : (goIntercalate [47] (strOf "http:" :: h :: ((splitSlash
          cfg.imagePath ++ (splitSlash (makeDatePathPart cfg.datePathFmt
            post.date) ++ splitSlash img.name)).filter pushableB))).head? =
          some 104 := rfl
      rw [h0] at h104
      simp at h104
    rw [goPathClean_no_dotdot _ hne hnr hdd hbody]
    rw [hsplit, hfil]
    have estep : goIntercalate [47] (strOf "http:" :: h :: ((splitSlash
        cfg.imagePath ++ (splitSlash (makeDatePathPart cfg.datePathFmt
          post.date) ++ splitSlash img.name)).filter pushableB)) =
        (strOf "http:" ++ [47]) ++ goIntercalate [47] (h :: ((splitSlash
          cfg.imagePath ++ (splitSlash (makeDatePathPart cfg.datePathFmt
            post.date) ++ splitSlash img.name)).filter pushableB)) := rfl
    rw [estep]
    apply goContains_of_isPrefixOf
    have hp6 : strOf "http:/" = strOf "http:" ++ [47] := rfl
    rw [hp6]
    exact isPrefixOf_append_right _ _ _ (isPrefixOf_self _)

theorem C10_witness :
    cfgEx.baseURL = strOf "http://" ++ strOf "example.com" ∧
    goContains ((SaveImage cfgEx postEx1 imgEx).image.url) (strOf "http:/") = true ∧
    goContains ((SaveImage cfgEx postEx1 imgEx).image.url) (strOf "://") = false :=
  ⟨by decide,
   C10_public_url_single_slash.2 cfgEx postEx1 imgEx (strOf "example.com")
     (by decide) (by decide) (by decide) (by decide) (by decide)
     (by decide) (by decide) (by decide),
   (C10_public_url_single_slash.1 cfgEx postEx1 imgEx).2.2⟩
